import Mathlib

/-!
Shallow embedding of the potential-storage core of this repository:
`openff/interchange/components/potentials.py` and
`openff/interchange/smirnoff/_valence.py`.

Quantities are modelled as exact rational magnitudes paired with a textual
unit; the specification treats unit arithmetic as an opaque
magnitude-plus-unit value supporting addition, scalar multiplication and
equality, and every addition performed by the embedded code adds
like-united quantities, for which `pint` addition is plain magnitude
addition.  Python dicts are modelled as insertion-ordered association
lists (first-match lookup, update-in-place-or-append insertion), and
fallible operations return `Except Err`.
-/

/-- Errors surfaced by the embedded operations, one constructor per
distinct Python exception class reachable in the embedded code:
`RuntimeError`, `NotImplementedError`, `KeyError` and `IndexError`. -/
inductive Err where
  | runtimeError
  | notImplemented
  | keyError
  | indexError
deriving DecidableEq, Repr

deriving instance DecidableEq for Except

/-- First-match lookup in an insertion-ordered association list: the model
of Python `d[k]` (`none` models `KeyError`) and of `k in d`. -/
def alookup [DecidableEq α] : List (α × β) → α → Option β
  | [], _ => none
  | (a, b) :: rest, k => if a = k then some b else alookup rest k

/-- Model of Python `d[k] = v` on an insertion-ordered dict: update the
first entry holding `k` in place, else append a new entry at the end. -/
def dictInsert [DecidableEq α] : List (α × β) → α → β → List (α × β)
  | [], k, v => [(k, v)]
  | (a, b) :: rest, k, v =>
    if a = k then (a, v) :: rest else (a, b) :: dictInsert rest k v

/-- First-encounter deduplication of a list, skipping anything in `seen`:
used to state what `Collection.get_mapping` computes. -/
def distinctsFrom [DecidableEq α] (seen : List α) : List α → List α
  | [] => []
  | v :: rest =>
    if v ∈ seen then distinctsFrom seen rest
    else v :: distinctsFrom (v :: seen) rest

/-- The distinct elements of a list in first-encounter order. -/
def distincts [DecidableEq α] (l : List α) : List α :=
  distinctsFrom [] l

/-- Pair each element of a list with its position counted from `i`. -/
def withIndices (i : Nat) : List α → List (α × Nat)
  | [] => []
  | a :: rest => (a, i) :: withIndices (i + 1) rest

/-- Model of a Boolean `Except.isOk` test. -/
def exceptIsOk : Except ε α → Bool
  | .ok _ => true
  | .error _ => false

/-- Modelled from the spec: the interaction-family variant of a
`TopologyKey` (`openff/interchange/models.py` is not part of the given
sources; the spec lists one `TopologyKey` subclass per interaction family,
all sharing one shape, plus the generic base class). -/
inductive KeyVariant where
  | generic
  | bond
  | angle
  | properTorsion
  | improperTorsion
  | libraryCharge
  | singleAtomCharge
deriving DecidableEq, Repr

/-- Modelled from the spec: a `TopologyKey` identifies a physical slot by
an ordered tuple of atom indices, an optional term multiplicity index and
an optional bond-order covariate; the subclass (per interaction family) is
part of its identity but not of its serialized fields. -/
structure TopologyKey where
  variant : KeyVariant
  atom_indices : List Nat
  mult : Option Nat
  bond_order : Option ℚ
deriving DecidableEq, Repr

/-- Modelled from the spec: a `PotentialKey` identifies a parameter
definition by a definition identifier (a SMIRKS pattern string), an
optional term multiplicity index, the name of the owning interaction
family, and an optional bond-order covariate. -/
structure PotentialKey where
  id : String
  mult : Option Nat
  associated_handler : String
  bond_order : Option ℚ
deriving DecidableEq, Repr

/-- An opaque physical quantity: an exact magnitude and a unit string. -/
structure Quantity where
  m : ℚ
  u : String
deriving DecidableEq, Repr

/-- Scalar multiplication of a quantity, which keeps its unit. -/
def qscale (c : ℚ) (q : Quantity) : Quantity :=
  ⟨c * q.m, q.u⟩

/-- Addition of like-united quantities (every addition performed by the
embedded code adds quantities carrying the same unit, where `pint`
addition is magnitude addition in that common unit). -/
def qadd (a b : Quantity) : Quantity :=
  ⟨a.m + b.m, a.u⟩

/-- `Potential`: a mapping from parameter name to quantity, plus the
optional covariate sample coordinate `map_key` used when the potential is
one ingredient of a `WrappedPotential`. -/
structure Potential where
  parameters : List (String × Quantity)
  map_key : Option ℚ
deriving DecidableEq, Repr

/-- A stored value of `Collection.potentials`: either a plain `Potential`
or a `WrappedPotential`, the latter owning its `_inner_data` mapping from
constituent `Potential` to coefficient. -/
inductive PotentialValue where
  | plain (p : Potential)
  | wrapped (inner : List (Potential × ℚ))
deriving DecidableEq, Repr

/-- `Collection`: the aggregate holding the slot-to-definition map
`key_map` and the definition-to-value map `potentials`. -/
structure Collection where
  type : String
  is_plugin : Bool
  expression : String
  key_map : List (TopologyKey × PotentialKey)
  potentials : List (PotentialKey × PotentialValue)
deriving DecidableEq, Repr

/-- The union, in first-encounter order, of the parameter names of a list
of potentials: the set `keys` built by `WrappedPotential.parameters` (the
source iterates a Python set, whose order is irrelevant to the resulting
mapping; the embedding fixes first-encounter order). -/
def unionNames (pots : List Potential) : List String :=
  distincts ((pots.map fun p => p.parameters.map Prod.fst).flatten)

/-- One generator term `coeff * pot.parameters[key]` per constituent of a
`WrappedPotential`, for a fixed parameter name: a constituent lacking the
name raises `KeyError`, exactly as `pot.parameters[key]` does. -/
def wrappedTermFor (inner : List (Potential × ℚ)) (k : String) :
    Except Err (List Quantity) :=
  match inner with
  | [] => .ok []
  | pc :: rest =>
    match alookup pc.1.parameters k with
    | none => .error .keyError
    | some q =>
      match wrappedTermFor rest k with
      | .error e => .error e
      | .ok ts => .ok (qscale pc.2 q :: ts)

/-- Python `sum` over a list of quantities (`0 + q` is `q`, so a nonempty
sum folds addition from the first term). -/
def sumQuantities : List Quantity → Quantity
  | [] => ⟨0, ""⟩
  | q :: rest => rest.foldl qadd q

/-- The loop body of `WrappedPotential.parameters`: one summed entry per
union parameter name. -/
def wrappedParametersGo (inner : List (Potential × ℚ)) :
    List String → Except Err (List (String × Quantity))
  | [] => .ok []
  | k :: ks =>
    match wrappedTermFor inner k with
    | .error e => .error e
    | .ok ts =>
      match wrappedParametersGo inner ks with
      | .error e => .error e
      | .ok rest => .ok ((k, sumQuantities ts) :: rest)

/-- `WrappedPotential.parameters`: for each parameter name present in any
constituent, the sum of `coeff * pot.parameters[key]` over all
constituents. -/
def wrappedParameters (inner : List (Potential × ℚ)) :
    Except Err (List (String × Quantity)) :=
  wrappedParametersGo inner (unionNames (inner.map Prod.fst))

/-- The per-name weighted sum computed by `WrappedPotential.parameters`
(total on the association-list model; the default is never used when
every constituent defines the name). -/
def weightedSum (inner : List (Potential × ℚ)) (k : String) : Quantity :=
  sumQuantities
    (inner.map fun pc => qscale pc.2 ((alookup pc.1.parameters k).getD ⟨0, ""⟩))

/-- The loop of `Collection.get_mapping`: assign indices to `key_map`
values in first-encounter order, skipping keys already assigned. -/
def getMappingLoop (mapping : List (PotentialKey × Nat)) (index : Nat) :
    List PotentialKey → List (PotentialKey × Nat)
  | [] => mapping
  | pk :: rest =>
    if (alookup mapping pk).isSome then getMappingLoop mapping index rest
    else getMappingLoop (mapping ++ [(pk, index)]) (index + 1) rest

/-- `Collection.get_mapping`. -/
def Collection.getMapping (c : Collection) : List (PotentialKey × Nat) :=
  getMappingLoop [] 0 (c.key_map.map Prod.snd)

/-- Whether a stored value is a `WrappedPotential`. -/
def PotentialValue.isWrapped : PotentialValue → Bool
  | .plain _ => false
  | .wrapped _ => true

/-- The `parameters` dict of a stored value, read only where the source
has already ruled out `WrappedPotential` entries via its
`NotImplementedError` guard. -/
def PotentialValue.parametersList : PotentialValue → List (String × Quantity)
  | .plain p => p.parameters
  | .wrapped _ => []

/-- `Collection.get_force_field_parameters`: one row of magnitudes per
entry of `potentials`, in `potentials` iteration order; fails with
`NotImplementedError` if any stored value is a `WrappedPotential`.  The
`use_jax` flag only selects the array backend and is omitted. -/
def Collection.getForceFieldParameters (c : Collection) :
    Except Err (List (List ℚ)) :=
  if c.potentials.any fun kv => kv.2.isWrapped then .error .notImplemented
  else .ok (c.potentials.map fun kv => kv.2.parametersList.map fun nq => nq.2.m)

/-- The array `get_force_field_parameters` returns on the fast path. -/
def ffRows (c : Collection) : List (List ℚ) :=
  c.potentials.map fun kv => kv.2.parametersList.map fun nq => nq.2.m

/-- The inner write-back of `set_force_field_parameters`: each parameter
is overwritten with the matching array entry times its original unit. -/
def updateQuantities (ps : List (String × Quantity)) (row : List ℚ) :
    List (String × Quantity) :=
  (ps.zip row).map fun x => (x.1.1, ⟨x.2, x.1.2.u⟩)

/-- The loop of `set_force_field_parameters` over `get_mapping().items()`:
looks up each key's potential (`KeyError` if absent), raises
`RuntimeError` on a column-count mismatch, and overwrites the stored
quantities.  For a `WrappedPotential` the source compares against, and
then writes into, the freshly computed `parameters` property, so the
stored data is not modified. -/
def setLoop (newP : List (List ℚ)) :
    List (PotentialKey × Nat) → List (PotentialKey × PotentialValue) →
    Except Err (List (PotentialKey × PotentialValue))
  | [], pots => .ok pots
  | (pk, idx) :: rest, pots =>
    match alookup pots pk with
    | none => .error .keyError
    | some (.plain p) =>
      if (newP.getD idx []).length ≠ p.parameters.length then .error .runtimeError
      else
        setLoop newP rest
          (dictInsert pots pk
            (.plain ⟨updateQuantities p.parameters (newP.getD idx []), p.map_key⟩))
    | some (.wrapped inner) =>
      match wrappedParameters inner with
      | .error e => .error e
      | .ok ps =>
        if (newP.getD idx []).length ≠ ps.length then .error .runtimeError
        else setLoop newP rest pots

/-- `Collection.set_force_field_parameters`. -/
def Collection.setForceFieldParameters (c : Collection)
    (newP : List (List ℚ)) : Except Err Collection :=
  if newP.length ≠ c.getMapping.length then .error .runtimeError
  else
    match setLoop newP c.getMapping c.potentials with
    | .error e => .error e
    | .ok pots => .ok { c with potentials := pots }

/-- The gather loop of `get_system_parameters`: one row per `key_map`
value, fetched at `mapping[potential_key]` (`IndexError` past the end of
the parameter array; the `mapping` lookup cannot fail because `mapping`
is built from the same `key_map`). -/
def gatherRows (mapping : List (PotentialKey × Nat)) (p : List (List ℚ)) :
    List PotentialKey → Except Err (List (List ℚ))
  | [] => .ok []
  | pk :: rest =>
    match alookup mapping pk with
    | none => .error .keyError
    | some idx =>
      match p[idx]? with
      | none => .error .indexError
      | some row =>
        match gatherRows mapping p rest with
        | .error e => .error e
        | .ok rows => .ok (row :: rows)

/-- `Collection.get_system_parameters`: fails with `NotImplementedError`
if any stored value is a `WrappedPotential`, otherwise gathers one row
per slot from the given array (or from a freshly computed
`get_force_field_parameters()` when the array is omitted). -/
def Collection.getSystemParameters (c : Collection)
    (p : Option (List (List ℚ))) : Except Err (List (List ℚ)) :=
  if c.potentials.any fun kv => kv.2.isWrapped then .error .notImplemented
  else
    match (match p with
           | some arr => Except.ok arr
           | none => c.getForceFieldParameters) with
    | .error e => .error e
    | .ok arr => gatherRows c.getMapping arr (c.key_map.map Prod.snd)

/-- The rows `get_system_parameters()` produces on success. -/
def systemRows (c : Collection) : List (List ℚ) :=
  (c.key_map.map Prod.snd).map fun pk =>
    (ffRows c).getD ((alookup c.getMapping pk).getD 0) []

/-- `_get_interpolation_coeffs`: the source unpacks the two sample points
`x1, x2 = data.keys()` of the tabulated data and returns the linear
interpolation coefficients. -/
def getInterpolationCoeffs (fractional_bond_order x1 x2 : ℚ) : ℚ × ℚ :=
  ((x2 - fractional_bond_order) / (x2 - x1),
   (fractional_bond_order - x1) / (x2 - x1))

/-- Modelled from the spec: the serialized form of a `TopologyKey` (its
fields; the subclass is recovered at decode time from the associated
`PotentialKey`, not stored). -/
structure TopologyKeyDoc where
  atom_indices : List Nat
  mult : Option Nat
  bond_order : Option ℚ
deriving DecidableEq, Repr

/-- Modelled from the spec: the serialized form of a stored potential.  A
plain `Potential` dumps its `parameters` (each quantity as a
magnitude/unit-string pair, here kept structured) and its `map_key`; a
`WrappedPotential` keeps its constituents in a pydantic private attribute,
which `model_dump_json` omits, so it serializes to an empty document. -/
inductive PotentialValueDoc where
  | withParameters (parameters : List (String × Quantity)) (map_key : Option ℚ)
  | empty
deriving DecidableEq, Repr

/-- The decode-time dispatch table of `validate_key_map`, from the
`associated_handler` embedded in the encoded `PotentialKey` to the
`TopologyKey` variant, with the generic base class as default. -/
def dispatchKeyVariant : String → KeyVariant
  | "Bonds" => .bond
  | "Angles" => .angle
  | "ProperTorsions" => .properTorsion
  | "ImproperTorsions" => .improperTorsion
  | "LibraryCharges" => .libraryCharge
  | "ToolkitAM1BCCHandler" => .singleAtomCharge
  | _ => .generic

/-- Modelled from the spec: `TopologyKey.model_dump_json` keeps the
fields and drops the class. -/
def serializeTopologyKey (tk : TopologyKey) : TopologyKeyDoc :=
  ⟨tk.atom_indices, tk.mult, tk.bond_order⟩

/-- `serialize_key_map`. -/
def serializeKeyMap (km : List (TopologyKey × PotentialKey)) :
    List (TopologyKeyDoc × PotentialKey) :=
  km.map fun kv => (serializeTopologyKey kv.1, kv.2)

/-- `validate_key_map`: rebuild each `TopologyKey`, dispatching its
variant on the value's `associated_handler`. -/
def validateKeyMap (v : List (TopologyKeyDoc × PotentialKey)) :
    List (TopologyKey × PotentialKey) :=
  v.map fun kv =>
    (⟨dispatchKeyVariant kv.2.associated_handler,
      kv.1.atom_indices, kv.1.mult, kv.1.bond_order⟩, kv.2)

/-- `model_dump_json` of a stored value (the `WrappedPotential` case dumps
no fields, its `_inner_data` being private). -/
def serializePotentialValue : PotentialValue → PotentialValueDoc
  | .plain p => .withParameters p.parameters p.map_key
  | .wrapped _ => .empty

/-- `Potential.model_validate_json` as invoked by `validate_potential_dict`
on every serialized value: an empty document parses as a `Potential` with
the default empty `parameters` and absent `map_key`. -/
def validatePotentialValue : PotentialValueDoc → Potential
  | .withParameters ps mk => ⟨ps, mk⟩
  | .empty => ⟨[], none⟩

/-- `serialize_potential_dict`. -/
def serializePotentials (pots : List (PotentialKey × PotentialValue)) :
    List (PotentialKey × PotentialValueDoc) :=
  pots.map fun kv => (kv.1, serializePotentialValue kv.2)

/-- `validate_potential_dict`: every value is parsed as a plain
`Potential`. -/
def validatePotentialDict (v : List (PotentialKey × PotentialValueDoc)) :
    List (PotentialKey × PotentialValue) :=
  v.map fun kv => (kv.1, .plain (validatePotentialValue kv.2))

/-- The persisted structured document of a `Collection`. -/
structure CollectionDoc where
  type : String
  is_plugin : Bool
  expression : String
  key_map : List (TopologyKeyDoc × PotentialKey)
  potentials : List (PotentialKey × PotentialValueDoc)
deriving DecidableEq, Repr

/-- Serialize a `Collection` to its structured document. -/
def serializeCollection (c : Collection) : CollectionDoc :=
  ⟨c.type, c.is_plugin, c.expression,
   serializeKeyMap c.key_map, serializePotentials c.potentials⟩

/-- Deserialize a structured document back into a `Collection`. -/
def validateCollection (d : CollectionDoc) : Collection :=
  ⟨d.type, d.is_plugin, d.expression,
   validateKeyMap d.key_map, validatePotentialDict d.potentials⟩

/-- The `k`/`angle` attributes of one angle definition of the external
parameter-definition table, as read by
`SMIRNOFFAngleCollection.store_potentials`. -/
structure AngleParameterType where
  k : Quantity
  angle : Quantity
deriving DecidableEq, Repr

/-- The loop of `SMIRNOFFAngleCollection.store_potentials` over
`key_map.values()`: resolve each definition by its SMIRKS id (`KeyError`
if unresolvable) and write the resulting plain `Potential`.  The source
has no reset of `potentials` before this loop. -/
def angleStorePotentialsLoop
    (handlerParameters : List (String × AngleParameterType)) :
    List PotentialKey → List (PotentialKey × PotentialValue) →
    Except Err (List (PotentialKey × PotentialValue))
  | [], pots => .ok pots
  | pk :: rest, pots =>
    match alookup handlerParameters pk.id with
    | none => .error .keyError
    | some parameter =>
      angleStorePotentialsLoop handlerParameters rest
        (dictInsert pots pk
          (.plain ⟨[("k", parameter.k), ("angle", parameter.angle)], none⟩))

/-- `SMIRNOFFAngleCollection.store_potentials`. -/
def angleStorePotentials (c : Collection)
    (handlerParameters : List (String × AngleParameterType)) :
    Except Err Collection :=
  match angleStorePotentialsLoop handlerParameters
      (c.key_map.map Prod.snd) c.potentials with
  | .error e => .error e
  | .ok pots => .ok { c with potentials := pots }

/-- The per-match, per-term body of
`SMIRNOFFImproperTorsionCollection.store_matches`: insert one
`ImproperTorsionKey` per cyclic permutation of the non-central atoms
`[key 0, key 2, key 3]`, the central atom `key 1` first, all mapped to
the one `PotentialKey` of the matched definition and term. -/
def improperTorsionInsertMatch (key_map : List (TopologyKey × PotentialKey))
    (a0 a1 a2 a3 : Nat) (smirks : String) (n : Nat) :
    List (TopologyKey × PotentialKey) :=
  let non_central := [a0, a2, a3]
  let permuted := [(0, 1, 2), (1, 2, 0), (2, 0, 1)].map fun t =>
    (non_central.getD t.1 0, non_central.getD t.2.1 0, non_central.getD t.2.2 0)
  permuted.foldl
    (fun km p =>
      dictInsert km ⟨.improperTorsion, [a1, p.1, p.2.1, p.2.2], some n, none⟩
        ⟨smirks, some n, "ImproperTorsions", none⟩)
    key_map

/-! ## Concrete instances used by witnesses and counterexamples -/

/-- A bond slot key. -/
def tkBond1 : TopologyKey := ⟨.bond, [0, 1], none, none⟩

/-- A second bond slot key. -/
def tkBond2 : TopologyKey := ⟨.bond, [1, 2], none, none⟩

/-- A bond parameter-definition key. -/
def pkBond1 : PotentialKey := ⟨"b1", none, "Bonds", none⟩

/-- A second bond parameter-definition key. -/
def pkBond2 : PotentialKey := ⟨"b2", none, "Bonds", none⟩

/-- A collection whose `potentials` iteration order disagrees with the
first-encounter order of its `key_map` values: `get_mapping` assigns
`pkBond1` index 0, but the row of `pkBond1` is the second row of
`get_force_field_parameters()`. -/
def cexC2 : Collection :=
  ⟨"Bonds", false, "k/2*(r-length)**2",
   [(tkBond1, pkBond1), (tkBond2, pkBond2)],
   [(pkBond2, .plain ⟨[("k", ⟨2, "kcal"⟩)], none⟩),
    (pkBond1, .plain ⟨[("k", ⟨1, "kcal"⟩)], none⟩)]⟩

/-- What `cexC2` becomes after `set_force_field_parameters` of its own
`get_force_field_parameters()` array: the two stored magnitudes swap. -/
def cexC2res : Collection :=
  ⟨"Bonds", false, "k/2*(r-length)**2",
   [(tkBond1, pkBond1), (tkBond2, pkBond2)],
   [(pkBond2, .plain ⟨[("k", ⟨1, "kcal"⟩)], none⟩),
    (pkBond1, .plain ⟨[("k", ⟨2, "kcal"⟩)], none⟩)]⟩

/-- A well-formed collection: two slots sharing one definition, and
`potentials` in the first-encounter order of the `key_map` values. -/
def wexC2 : Collection :=
  ⟨"Bonds", false, "k/2*(r-length)**2",
   [(tkBond1, pkBond1), (tkBond2, pkBond1)],
   [(pkBond1, .plain ⟨[("k", ⟨500, "kcal"⟩), ("length", ⟨109, "pm"⟩)], none⟩)]⟩

/-- A collection violating the lazy invariant: `pkBond2` occurs in
`key_map` but has no entry in `potentials`, so its `get_mapping` index 1
points past the one-row parameter array. -/
def cexC5 : Collection :=
  ⟨"Bonds", false, "k/2*(r-length)**2",
   [(tkBond1, pkBond1), (tkBond2, pkBond2)],
   [(pkBond1, .plain ⟨[("k", ⟨1, "kcal"⟩)], none⟩)]⟩

/-- A collection storing a `WrappedPotential` (an interpolated bond). -/
def wexC7 : Collection :=
  ⟨"Bonds", false, "k/2*(r-length)**2",
   [(tkBond1, pkBond1)],
   [(pkBond1, .wrapped
      [(⟨[("k", ⟨400, "kcal"⟩)], some 1⟩, 1/2),
       (⟨[("k", ⟨600, "kcal"⟩)], some 2⟩, 1/2)])]⟩

/-- A collection violating the lazy invariant with a well-shaped input
array: `pkBond1` occurs in `key_map` but not in `potentials`. -/
def cexC8 : Collection :=
  ⟨"Bonds", false, "k/2*(r-length)**2", [(tkBond1, pkBond1)], []⟩

/-- A first tabulated sample potential (covariate 1). -/
def p1ex : Potential := ⟨[("k", ⟨400, "kcal"⟩)], some 1⟩

/-- A second tabulated sample potential (covariate 2). -/
def p2ex : Potential := ⟨[("k", ⟨600, "kcal"⟩)], some 2⟩

/-- Inner data of a `WrappedPotential` whose constituents both define the
one parameter name. -/
def innerC6good : List (Potential × ℚ) :=
  [(⟨[("k", ⟨1, "u"⟩)], none⟩, 1), (⟨[("k", ⟨3, "u"⟩)], none⟩, 1)]

/-- Inner data of a `WrappedPotential` whose second constituent lacks the
name `k` that the first defines. -/
def innerC6bad : List (Potential × ℚ) :=
  [(⟨[("k", ⟨1, "u"⟩)], none⟩, 1), (⟨[("length", ⟨2, "angstrom"⟩)], none⟩, 1)]

/-- A collection storing an interpolated bond as a `WrappedPotential`,
whose inner data lives in a private attribute. -/
def cexC3 : Collection :=
  ⟨"Bonds", false, "k/2*(r-length)**2",
   [(tkBond1, pkBond1)],
   [(pkBond1, .wrapped [(p1ex, 1), (p2ex, 1)])]⟩

/-- What deserializing the serialized `cexC3` yields: the wrapped entry
comes back as a plain `Potential` with pydantic's defaults, its inner
data lost. -/
def cexC3res : Collection :=
  ⟨"Bonds", false, "k/2*(r-length)**2",
   [(tkBond1, pkBond1)],
   [(pkBond1, .plain ⟨[], none⟩)]⟩

/-- An angle slot key. -/
def tkAngle1 : TopologyKey := ⟨.angle, [0, 1, 2], none, none⟩

/-- An angle parameter-definition key. -/
def pkAngle1 : PotentialKey := ⟨"a1", none, "Angles", none⟩

/-- A stale parameter-definition key that does not occur in the key map. -/
def pkStale : PotentialKey := ⟨"a0", none, "Angles", none⟩

/-- A one-definition angle parameter table. -/
def angleHandlerEx : List (String × AngleParameterType) :=
  [("a1", ⟨⟨100, "kcal"⟩, ⟨2, "rad"⟩⟩)]

/-- An angle collection that already stores a potential under `pkStale`
when `store_potentials` runs. -/
def cexC9 : Collection :=
  ⟨"Angles", false, "k/2*(theta-angle)**2",
   [(tkAngle1, pkAngle1)],
   [(pkStale, .plain ⟨[("k", ⟨7, "kcal"⟩)], none⟩)]⟩

/-- What `cexC9` becomes after `store_potentials`: the stale entry
survives next to the freshly resolved one. -/
def cexC9res : Collection :=
  ⟨"Angles", false, "k/2*(theta-angle)**2",
   [(tkAngle1, pkAngle1)],
   [(pkStale, .plain ⟨[("k", ⟨7, "kcal"⟩)], none⟩),
    (pkAngle1, .plain ⟨[("k", ⟨100, "kcal"⟩), ("angle", ⟨2, "rad"⟩)], none⟩)]⟩

/-! ## Association-list and index lemmas -/

theorem alookup_isSome_iff [DecidableEq α] (l : List (α × β)) (k : α) :
    (alookup l k).isSome = true ↔ k ∈ l.map Prod.fst := by
  induction l with
  | nil => simp [alookup]
  | cons hd tl ih =>
    obtain ⟨a, b⟩ := hd
    by_cases h : a = k
    · subst h; simp [alookup]
    · simp only [alookup, if_neg h, List.map_cons, List.mem_cons, ih]
      constructor
      · exact fun hx => Or.inr hx
      · rintro (hx | hx)
        · exact absurd hx.symm h
        · exact hx

theorem alookup_isSome_of_mem [DecidableEq α] {l : List (α × β)} {k : α}
    (h : k ∈ l.map Prod.fst) : (alookup l k).isSome = true :=
  (alookup_isSome_iff l k).2 h

theorem alookup_dictInsert_self [DecidableEq α] (l : List (α × β)) (k : α) (v : β) :
    alookup (dictInsert l k v) k = some v := by
  induction l with
  | nil => simp [dictInsert, alookup]
  | cons hd tl ih =>
    obtain ⟨a, b⟩ := hd
    by_cases h : a = k
    · simp [dictInsert, h, alookup]
    · simp [dictInsert, h, alookup, ih]

theorem alookup_dictInsert_ne [DecidableEq α] (l : List (α × β)) {k q : α} (v : β)
    (h : q ≠ k) : alookup (dictInsert l k v) q = alookup l q := by
  have hkq : ¬k = q := fun hx => h hx.symm
  induction l with
  | nil => simp [dictInsert, alookup, hkq]
  | cons hd tl ih =>
    obtain ⟨a, b⟩ := hd
    by_cases ha : a = k
    · subst ha
      simp [dictInsert, alookup, hkq]
    · by_cases hq : a = q
      · subst hq
        simp [dictInsert, ha, alookup]
      · simp [dictInsert, ha, alookup, hq, ih]

theorem dictInsert_self [DecidableEq α] {l : List (α × β)} {k : α} {v : β}
    (h : alookup l k = some v) : dictInsert l k v = l := by
  induction l with
  | nil => simp [alookup] at h
  | cons hd tl ih =>
    obtain ⟨a, b⟩ := hd
    by_cases ha : a = k
    · subst ha
      simp only [alookup, if_true, eq_self_iff_true, Option.some_inj] at h
      subst h
      simp [dictInsert]
    · simp only [alookup, if_neg ha] at h
      simp only [dictInsert, if_neg ha, ih h]

theorem listGetD_map (l : List α) (f : α → β) (d : α) (d' : β) :
    ∀ i, i < l.length → (l.map f).getD i d' = f (l.getD i d) := by
  induction l with
  | nil => intro i hi; simp at hi
  | cons a tl ih =>
    intro i hi
    cases i with
    | zero => simp
    | succ j =>
      simp only [List.map_cons, List.getD_cons_succ]
      exact ih j (by simpa using hi)

theorem listGetElem?_eq_getD (l : List α) (d : α) :
    ∀ i, i < l.length → l[i]? = some (l.getD i d) := by
  induction l with
  | nil => intro i hi; simp at hi
  | cons a tl ih =>
    intro i hi
    cases i with
    | zero => simp
    | succ j =>
      simp only [List.getElem?_cons_succ, List.getD_cons_succ]
      exact ih j (by simpa using hi)

theorem listGetD_mem (l : List α) (d : α) :
    ∀ i, i < l.length → l.getD i d ∈ l := by
  induction l with
  | nil => intro i hi; simp at hi
  | cons a tl ih =>
    intro i hi
    cases i with
    | zero => simp
    | succ j =>
      simp only [List.getD_cons_succ, List.mem_cons]
      exact Or.inr (ih j (by simpa using hi))

theorem alookup_getD_of_nodup [DecidableEq α] (l : List (α × β)) (d : α × β)
    (h : (l.map Prod.fst).Nodup) :
    ∀ i, i < l.length → alookup l (l.getD i d).1 = some (l.getD i d).2 := by
  induction l with
  | nil => intro i hi; simp at hi
  | cons hd tl ih =>
    obtain ⟨a, b⟩ := hd
    simp only [List.map_cons, List.nodup_cons] at h
    intro i hi
    cases i with
    | zero => simp [alookup]
    | succ j =>
      have hj : j < tl.length := by simpa using hi
      have hmem : (tl.getD j d).1 ∈ tl.map Prod.fst :=
        List.mem_map.2 ⟨tl.getD j d, listGetD_mem tl d j hj, rfl⟩
      have hne : a ≠ (tl.getD j d).1 := fun he => h.1 (he ▸ hmem)
      simp only [List.getD_cons_succ, alookup, if_neg hne]
      exact ih h.2 j hj

/-! ## `distincts` and `withIndices` lemmas -/

theorem mem_distinctsFrom [DecidableEq α] (l : List α) :
    ∀ (seen : List α) (x : α),
      x ∈ distinctsFrom seen l ↔ x ∈ l ∧ x ∉ seen := by
  induction l with
  | nil => intro seen x; simp [distinctsFrom]
  | cons v rest ih =>
    intro seen x
    by_cases hv : v ∈ seen
    · rw [distinctsFrom, if_pos hv, ih]
      constructor
      · exact fun ⟨h1, h2⟩ => ⟨List.mem_cons_of_mem v h1, h2⟩
      · rintro ⟨h1, h2⟩
        rcases List.mem_cons.1 h1 with he | hm
        · exact absurd (he ▸ hv) h2
        · exact ⟨hm, h2⟩
    · rw [distinctsFrom, if_neg hv]
      by_cases hx : x = v
      · subst hx
        simp [hv]
      · simp only [List.mem_cons, hx, false_or, ih, List.mem_cons]

theorem distinctsFrom_nodup [DecidableEq α] (l : List α) :
    ∀ seen : List α, (distinctsFrom seen l).Nodup := by
  induction l with
  | nil => intro seen; simp [distinctsFrom]
  | cons v rest ih =>
    intro seen
    by_cases hv : v ∈ seen
    · rw [distinctsFrom, if_pos hv]; exact ih seen
    · rw [distinctsFrom, if_neg hv]
      refine List.nodup_cons.2 ⟨?_, ih (v :: seen)⟩
      intro hmem
      exact ((mem_distinctsFrom rest (v :: seen) v).1 hmem).2 (List.mem_cons_self v seen)

theorem mem_distincts [DecidableEq α] (l : List α) (x : α) :
    x ∈ distincts l ↔ x ∈ l := by
  rw [distincts, mem_distinctsFrom]
  simp

theorem distincts_nodup [DecidableEq α] (l : List α) : (distincts l).Nodup :=
  distinctsFrom_nodup l []

theorem distincts_toFinset [DecidableEq α] (l : List α) :
    (distincts l).toFinset = l.toFinset := by
  ext x
  simp [List.mem_toFinset, mem_distincts]

theorem distincts_length [DecidableEq α] (l : List α) :
    (distincts l).length = l.toFinset.card := by
  rw [← distincts_toFinset, List.toFinset_card_of_nodup (distincts_nodup l)]

theorem distinctsFrom_congr [DecidableEq α] (l : List α) :
    ∀ s₁ s₂ : List α, (∀ x, x ∈ s₁ ↔ x ∈ s₂) →
      distinctsFrom s₁ l = distinctsFrom s₂ l := by
  induction l with
  | nil => intro _ _ _; rfl
  | cons v rest ih =>
    intro s₁ s₂ h
    by_cases hv : v ∈ s₁
    · rw [distinctsFrom, if_pos hv, distinctsFrom, if_pos ((h v).1 hv)]
      exact ih s₁ s₂ h
    · rw [distinctsFrom, if_neg hv, distinctsFrom, if_neg (fun hx => hv ((h v).2 hx))]
      congr 1
      refine ih _ _ fun x => ?_
      simp only [List.mem_cons]
      exact or_congr Iff.rfl (h x)

theorem withIndices_length (l : List α) : ∀ i, (withIndices i l).length = l.length := by
  induction l with
  | nil => intro i; rfl
  | cons a rest ih => intro i; simp [withIndices, ih]

theorem withIndices_map_fst (l : List α) :
    ∀ i, (withIndices i l).map Prod.fst = l := by
  induction l with
  | nil => intro i; rfl
  | cons a rest ih => intro i; simp [withIndices, ih]

theorem withIndices_map_snd (l : List α) :
    ∀ i, (withIndices i l).map Prod.snd = List.range' i l.length := by
  induction l with
  | nil => intro i; rfl
  | cons a rest ih =>
    intro i
    simp [withIndices, ih, List.range'_succ]

theorem withIndices_mem (l : List α) (d : α) :
    ∀ (i : Nat) (e : α × Nat), e ∈ withIndices i l →
      i ≤ e.2 ∧ e.2 - i < l.length ∧ l.getD (e.2 - i) d = e.1 := by
  induction l with
  | nil => intro i e he; simp [withIndices] at he
  | cons a rest ih =>
    intro i e he
    rcases List.mem_cons.1 he with he | he
    · subst he
      simp
    · obtain ⟨h1, h2, h3⟩ := ih (i + 1) e he
      refine ⟨by omega, by simp only [List.length_cons]; omega, ?_⟩
      have hd : e.2 - i = (e.2 - (i + 1)) + 1 := by omega
      rw [hd, List.getD_cons_succ]
      exact h3

theorem alookup_withIndices_of_mem [DecidableEq α] (l : List α) (k : α) :
    ∀ i, k ∈ l → ∃ t, t < l.length ∧ alookup (withIndices i l) k = some (i + t) := by
  induction l with
  | nil => intro i h; simp at h
  | cons a rest ih =>
    intro i h
    by_cases ha : a = k
    · exact ⟨0, by simp, by simp [withIndices, alookup, ha]⟩
    · have hm : k ∈ rest := by
        rcases List.mem_cons.1 h with he | hm
        · exact absurd he.symm ha
        · exact hm
      obtain ⟨t, ht, he⟩ := ih (i + 1) hm
      refine ⟨t + 1, by simp only [List.length_cons]; omega, ?_⟩
      have harith : i + (t + 1) = i + 1 + t := by omega
      rw [withIndices, alookup, if_neg ha, harith, he]

/-! ## `get_mapping` characterization -/

theorem getMappingLoop_eq (vals : List PotentialKey) :
    ∀ mapping : List (PotentialKey × Nat),
      getMappingLoop mapping mapping.length vals =
        mapping ++ withIndices mapping.length
          (distinctsFrom (mapping.map Prod.fst) vals) := by
  induction vals with
  | nil => intro mapping; simp [getMappingLoop, distinctsFrom, withIndices]
  | cons pk rest ih =>
    intro mapping
    by_cases h : pk ∈ mapping.map Prod.fst
    · rw [getMappingLoop, if_pos (alookup_isSome_of_mem h),
        distinctsFrom, if_pos h]
      exact ih mapping
    · rw [getMappingLoop,
        if_neg (by
          intro hs
          exact h ((alookup_isSome_iff mapping pk).1 hs)),
        distinctsFrom, if_neg h]
      have hlen : mapping.length + 1 = (mapping ++ [(pk, mapping.length)]).length := by
        simp
      rw [hlen, ih (mapping ++ [(pk, mapping.length)])]
      have hseen : distinctsFrom ((mapping ++ [(pk, mapping.length)]).map Prod.fst) rest =
          distinctsFrom (pk :: mapping.map Prod.fst) rest := by
        refine distinctsFrom_congr rest _ _ fun x => ?_
        simp [or_comm]
      rw [hseen]
      simp [withIndices, List.append_assoc]

theorem getMapping_eq (c : Collection) :
    c.getMapping = withIndices 0 (distincts (c.key_map.map Prod.snd)) := by
  have h := getMappingLoop_eq (c.key_map.map Prod.snd) []
  simpa [Collection.getMapping, distincts] using h

/-! ## Claim C1 -/

/-- Claim C1: for every Collection, `get_mapping()` maps the distinct
`PotentialKey` values of `key_map`, in first-encounter order and each
exactly once, to the indices `0, ..., n-1` in that order, where `n` is
the number of distinct `PotentialKey` values of `key_map`: a bijection
onto `{0, ..., n-1}`. -/
theorem get_mapping_c1 (c : Collection) :
    c.getMapping.map Prod.fst = distincts (c.key_map.map Prod.snd) ∧
    (c.getMapping.map Prod.fst).Nodup ∧
    c.getMapping.map Prod.snd =
      List.range (distincts (c.key_map.map Prod.snd)).length ∧
    (distincts (c.key_map.map Prod.snd)).length =
      (c.key_map.map Prod.snd).toFinset.card ∧
    ∀ pk, pk ∈ distincts (c.key_map.map Prod.snd) ↔ pk ∈ c.key_map.map Prod.snd := by
  rw [getMapping_eq]
  refine ⟨withIndices_map_fst _ _, ?_, ?_, distincts_length _,
    fun pk => mem_distincts _ pk⟩
  · rw [withIndices_map_fst]
    exact distincts_nodup _
  · rw [withIndices_map_snd, List.range_eq_range']

/-! ## Claim C2 -/

theorem updateQuantities_self (ps : List (String × Quantity)) :
    updateQuantities ps (ps.map fun nq => nq.2.m) = ps := by
  induction ps with
  | nil => rfl
  | cons a tl ih =>
    show (a.1, (⟨a.2.m, a.2.u⟩ : Quantity)) ::
        updateQuantities tl (tl.map fun nq => nq.2.m) = a :: tl
    rw [ih]

theorem setLoop_id (newP : List (List ℚ)) :
    ∀ (m : List (PotentialKey × Nat)) (pots : List (PotentialKey × PotentialValue)),
      (∀ e ∈ m, ∃ p, alookup pots e.1 = some (.plain p) ∧
        (newP.getD e.2 []).length = p.parameters.length ∧
        updateQuantities p.parameters (newP.getD e.2 []) = p.parameters) →
      setLoop newP m pots = .ok pots := by
  intro m
  induction m with
  | nil => intro pots _; rfl
  | cons e rest ih =>
    intro pots h
    obtain ⟨p, hp, hlen, hupd⟩ := h e (List.mem_cons_self e rest)
    obtain ⟨pk, idx⟩ := e
    have hvaleq : (PotentialValue.plain
        ⟨updateQuantities p.parameters (newP.getD idx []), p.map_key⟩) = .plain p := by
      rw [hupd]
    rw [setLoop, hp]
    show (if (newP.getD idx []).length ≠ p.parameters.length
        then Except.error Err.runtimeError
        else setLoop newP rest (dictInsert pots pk
          (PotentialValue.plain
            ⟨updateQuantities p.parameters (newP.getD idx []), p.map_key⟩))) =
      Except.ok pots
    rw [if_neg (show ¬((newP.getD idx []).length ≠ p.parameters.length) from
      fun hne => hne hlen)]
    rw [hvaleq, dictInsert_self hp]
    exact ih pots fun e' he' => h e' (List.mem_cons_of_mem _ he')

/-- The `NotImplementedError` guard is off when all values are plain. -/
theorem any_isWrapped_false {c : Collection}
    (hplain : ∀ kv ∈ c.potentials, kv.2.isWrapped = false) :
    ¬((c.potentials.any fun kv => kv.2.isWrapped) = true) := by
  rw [List.any_eq_true]
  rintro ⟨kv, hkv, hw⟩
  rw [hplain kv hkv] at hw
  exact Bool.false_ne_true hw

theorem getForceFieldParameters_of_plain {c : Collection}
    (hplain : ∀ kv ∈ c.potentials, kv.2.isWrapped = false) :
    c.getForceFieldParameters = .ok (ffRows c) := by
  rw [Collection.getForceFieldParameters, if_neg (any_isWrapped_false hplain)]
  rfl

/-- Claim C2 (amended): for a Collection whose `potentials` are all plain
and whose `potentials` keys are, in order, exactly the distinct
`key_map` values in first-encounter order (as `store_potentials`
produces), `set_force_field_parameters(get_force_field_parameters())`
succeeds and leaves the collection — hence every stored magnitude and
unit, and the array a further `get_force_field_parameters()` returns —
unchanged. -/
theorem set_get_c2_amended (c : Collection)
    (horder : c.potentials.map Prod.fst = distincts (c.key_map.map Prod.snd))
    (hplain : ∀ kv ∈ c.potentials, kv.2.isWrapped = false) :
    c.getForceFieldParameters = .ok (ffRows c) ∧
    c.setForceFieldParameters (ffRows c) = .ok c := by
  refine ⟨getForceFieldParameters_of_plain hplain, ?_⟩
  have hmap : c.getMapping = withIndices 0 (c.potentials.map Prod.fst) := by
    rw [getMapping_eq, horder]
  have hnodup : (c.potentials.map Prod.fst).Nodup := by
    rw [horder]; exact distincts_nodup _
  have hlen : (ffRows c).length = c.getMapping.length := by
    rw [hmap, withIndices_length, ffRows, List.length_map, List.length_map]
  have hloop : setLoop (ffRows c) c.getMapping c.potentials = .ok c.potentials := by
    refine setLoop_id (ffRows c) c.getMapping c.potentials fun e he => ?_
    rw [hmap] at he
    obtain ⟨-, h2, h3⟩ :=
      withIndices_mem (c.potentials.map Prod.fst) pkBond1 0 e he
    simp only [Nat.sub_zero] at h2 h3
    have hidx : e.2 < c.potentials.length := by
      rw [List.length_map] at h2; exact h2
    have hfst : (c.potentials.getD e.2 (pkBond1, .plain ⟨[], none⟩)).1 = e.1 := by
      rw [← h3, listGetD_map c.potentials Prod.fst (pkBond1, .plain ⟨[], none⟩)
        pkBond1 e.2 hidx]
    have hlook : alookup c.potentials e.1 =
        some (c.potentials.getD e.2 (pkBond1, .plain ⟨[], none⟩)).2 := by
      rw [← hfst]
      exact alookup_getD_of_nodup c.potentials (pkBond1, .plain ⟨[], none⟩)
        hnodup e.2 hidx
    have hmem : c.potentials.getD e.2 (pkBond1, .plain ⟨[], none⟩) ∈ c.potentials :=
      listGetD_mem c.potentials _ e.2 hidx
    have hw := hplain _ hmem
    set entry := c.potentials.getD e.2 (pkBond1, .plain ⟨[], none⟩) with hentry
    obtain ⟨p, hp⟩ : ∃ p, entry.2 = .plain p := by
      cases hval : entry.2 with
      | plain p => exact ⟨p, rfl⟩
      | wrapped inner =>
        rw [hval] at hw
        exact absurd hw (by simp [PotentialValue.isWrapped])
    have hrow : (ffRows c).getD e.2 [] = p.parameters.map fun nq => nq.2.m := by
      rw [ffRows]
      rw [listGetD_map c.potentials _ (pkBond1, .plain ⟨[], none⟩) [] e.2 hidx]
      rw [← hentry, hp]
      simp [PotentialValue.parametersList]
    refine ⟨p, by rw [hlook, hp], by rw [hrow, List.length_map],
      by rw [hrow]; exact updateQuantities_self p.parameters⟩
  rw [Collection.setForceFieldParameters,
    if_neg (show ¬((ffRows c).length ≠ c.getMapping.length) from fun hne => hne hlen),
    hloop]

/-- Counterexample to claim C2 as stated: on `cexC2` (all potentials
plain), writing back the freshly read force-field-parameter array swaps
the two stored magnitudes, so a further read returns a different array
and the quantity stored under `pkBond1` changes from 1 to 2 kcal. -/
theorem set_get_c2_counterexample :
    cexC2.getForceFieldParameters = .ok [[2], [1]] ∧
    cexC2.setForceFieldParameters [[2], [1]] = .ok cexC2res ∧
    cexC2res.getForceFieldParameters = .ok [[1], [2]] ∧
    alookup cexC2.potentials pkBond1 = some (.plain ⟨[("k", ⟨1, "kcal"⟩)], none⟩) ∧
    alookup cexC2res.potentials pkBond1 = some (.plain ⟨[("k", ⟨2, "kcal"⟩)], none⟩) ∧
    ([[1], [2]] : List (List ℚ)) ≠ [[2], [1]] := by
  decide

/-- Witness for the amended claim C2 at the concrete collection `wexC2`. -/
theorem set_get_c2_amended_witness :
    wexC2.setForceFieldParameters (ffRows wexC2) = .ok wexC2 :=
  (set_get_c2_amended wexC2 (by decide) (by decide)).2

/-! ## Claim C7 -/

/-- Claim C7: when any stored value of `potentials` is a
`WrappedPotential`, both `get_force_field_parameters` and
`get_system_parameters` fail with the not-implemented condition instead
of returning an array. -/
theorem wrapped_not_implemented_c7 (c : Collection) (p : Option (List (List ℚ)))
    (h : ∃ kv ∈ c.potentials, kv.2.isWrapped = true) :
    c.getForceFieldParameters = .error .notImplemented ∧
    c.getSystemParameters p = .error .notImplemented := by
  have hany : (c.potentials.any fun kv => kv.2.isWrapped) = true :=
    List.any_eq_true.2 h
  constructor
  · rw [Collection.getForceFieldParameters, if_pos hany]
  · rw [Collection.getSystemParameters.eq_def, if_pos hany]

/-- Witness for claim C7 at the concrete collection `wexC7`, which stores
one interpolated bond as a `WrappedPotential`. -/
theorem wrapped_not_implemented_c7_witness :
    wexC7.getForceFieldParameters = .error .notImplemented ∧
    wexC7.getSystemParameters none = .error .notImplemented :=
  wrapped_not_implemented_c7 wexC7 none (by decide)

/-! ## Claim C5 -/

theorem listGetElem?_map (f : α → β) (l : List α) :
    ∀ i : Nat, (l.map f)[i]? = (l[i]?).map f := by
  induction l with
  | nil => intro i; simp
  | cons a tl ih =>
    intro i
    cases i with
    | zero => simp
    | succ j => simp [ih j]

theorem gatherRows_ok (mapping : List (PotentialKey × Nat)) (p : List (List ℚ)) :
    ∀ vals : List PotentialKey,
      (∀ pk ∈ vals, ∃ i, alookup mapping pk = some i ∧ i < p.length) →
      gatherRows mapping p vals =
        .ok (vals.map fun pk => p.getD ((alookup mapping pk).getD 0) []) := by
  intro vals
  induction vals with
  | nil => intro _; rfl
  | cons pk rest ih =>
    intro h
    obtain ⟨i, hi, hlt⟩ := h pk (List.mem_cons_self pk rest)
    have hrest := ih fun pk' h' => h pk' (List.mem_cons_of_mem _ h')
    simp only [gatherRows, hi, listGetElem?_eq_getD p [] i hlt, hrest,
      List.map_cons, Option.getD_some]

/-- Claim C5 (amended): for a Collection whose `potentials` are all plain
and in which the number of distinct `PotentialKey` values of `key_map`
does not exceed the number of stored potentials (as when every `key_map`
value has an entry in `potentials`), `get_system_parameters()` returns
one row per `key_map` entry, and slots carrying equal `PotentialKey`
values receive identical rows. -/
theorem get_system_parameters_c5_amended (c : Collection)
    (hplain : ∀ kv ∈ c.potentials, kv.2.isWrapped = false)
    (hcount : (distincts (c.key_map.map Prod.snd)).length ≤ c.potentials.length) :
    c.getSystemParameters none = .ok (systemRows c) ∧
    (systemRows c).length = c.key_map.length ∧
    ∀ i j : Nat, (c.key_map[i]?).map Prod.snd = (c.key_map[j]?).map Prod.snd →
      (systemRows c)[i]? = (systemRows c)[j]? := by
  have hcond : ∀ pk ∈ c.key_map.map Prod.snd,
      ∃ i, alookup c.getMapping pk = some i ∧ i < (ffRows c).length := by
    intro pk hpk
    obtain ⟨t, ht, he⟩ :=
      alookup_withIndices_of_mem (distincts (c.key_map.map Prod.snd)) pk 0
        ((mem_distincts _ pk).2 hpk)
    refine ⟨0 + t, by rw [getMapping_eq]; exact he, ?_⟩
    have hry : (ffRows c).length = c.potentials.length := by
      rw [ffRows, List.length_map]
    omega
  have hgather := gatherRows_ok c.getMapping (ffRows c) (c.key_map.map Prod.snd) hcond
  refine ⟨?_, ?_, ?_⟩
  · rw [Collection.getSystemParameters.eq_def, if_neg (any_isWrapped_false hplain)]
    show (match c.getForceFieldParameters with
          | .error e => Except.error e
          | .ok arr => gatherRows c.getMapping arr (c.key_map.map Prod.snd)) =
        .ok (systemRows c)
    rw [getForceFieldParameters_of_plain hplain]
    exact hgather
  · rw [systemRows, List.length_map, List.length_map]
  · intro i j hij
    rw [systemRows, listGetElem?_map, listGetElem?_map, listGetElem?_map,
      listGetElem?_map, hij]

/-- Counterexample to claim C5 as stated: `cexC5` stores only plain
potentials, yet `get_system_parameters()` raises `IndexError` instead of
returning a two-row array, because the second distinct `key_map` value
indexes past the one-row parameter array. -/
theorem get_system_parameters_c5_counterexample :
    cexC5.getSystemParameters none = .error .indexError := by
  decide

/-- Witness for the amended claim C5 at the concrete collection `wexC2`. -/
theorem get_system_parameters_c5_witness :
    wexC2.getSystemParameters none = .ok (systemRows wexC2) :=
  (get_system_parameters_c5_amended wexC2 (by decide) (by decide)).1

/-! ## Claim C8 -/

theorem setLoop_error (newP : List (List ℚ)) :
    ∀ (m : List (PotentialKey × Nat)) (pots : List (PotentialKey × PotentialValue)),
      (m.map Prod.fst).Nodup →
      (∀ e ∈ m, ∃ p, alookup pots e.1 = some (.plain p)) →
      (∃ e ∈ m, ∃ p, alookup pots e.1 = some (.plain p) ∧
        (newP.getD e.2 []).length ≠ p.parameters.length) →
      setLoop newP m pots = .error .runtimeError := by
  intro m
  induction m with
  | nil =>
    rintro pots _ _ ⟨e, he, -⟩
    exact absurd he (List.not_mem_nil e)
  | cons e rest ih =>
    rintro pots hnodup hpresent ⟨e', he', p', hp', hbad⟩
    obtain ⟨p, hp⟩ := hpresent e (List.mem_cons_self e rest)
    obtain ⟨pk, idx⟩ := e
    simp only [List.map_cons, List.nodup_cons] at hnodup
    rw [setLoop, hp]
    show (if (newP.getD idx []).length ≠ p.parameters.length
        then Except.error Err.runtimeError
        else setLoop newP rest (dictInsert pots pk
          (PotentialValue.plain
            ⟨updateQuantities p.parameters (newP.getD idx []), p.map_key⟩))) =
      Except.error Err.runtimeError
    by_cases hc : (newP.getD idx []).length ≠ p.parameters.length
    · rw [if_pos hc]
    · rw [if_neg hc]
      have hrest : e' ∈ rest := by
        rcases List.mem_cons.1 he' with heq | hm
        · exfalso
          subst heq
          rw [hp'] at hp
          have : p = p' := by
            injection Option.some_inj.mp hp with h
            exact h.symm
          exact hc (this ▸ hbad)
        · exact hm
    -- every key of `rest` differs from `pk`, so the insert is invisible
      have hne : ∀ e'' ∈ rest, e''.1 ≠ pk := by
        intro e'' he'' heq
        exact hnodup.1 (heq ▸ List.mem_map_of_mem Prod.fst he'')
      refine ih (dictInsert pots pk
          (PotentialValue.plain
            ⟨updateQuantities p.parameters (newP.getD idx []), p.map_key⟩))
        hnodup.2 ?_ ?_
      · intro e'' he''
        obtain ⟨q, hq⟩ := hpresent e'' (List.mem_cons_of_mem _ he'')
        exact ⟨q, by rw [alookup_dictInsert_ne pots _ (hne e'' he''), hq]⟩
      · exact ⟨e', hrest, p',
          by rw [alookup_dictInsert_ne pots _ (hne e' hrest), hp'], hbad⟩

theorem setLoop_ok (newP : List (List ℚ)) :
    ∀ (m : List (PotentialKey × Nat)) (pots : List (PotentialKey × PotentialValue)),
      (m.map Prod.fst).Nodup →
      (∀ e ∈ m, ∃ p, alookup pots e.1 = some (.plain p) ∧
        (newP.getD e.2 []).length = p.parameters.length) →
      ∃ pots', setLoop newP m pots = .ok pots' ∧
        (∀ e ∈ m, ∀ p, alookup pots e.1 = some (.plain p) →
          alookup pots' e.1 = some (.plain
            ⟨updateQuantities p.parameters (newP.getD e.2 []), p.map_key⟩)) ∧
        (∀ q, q ∉ m.map Prod.fst → alookup pots' q = alookup pots q) := by
  intro m
  induction m with
  | nil =>
    intro pots _ _
    exact ⟨pots, rfl, fun e he => absurd he (List.not_mem_nil e),
      fun q _ => rfl⟩
  | cons e rest ih =>
    intro pots hnodup h
    obtain ⟨p, hp, hlen⟩ := h e (List.mem_cons_self e rest)
    obtain ⟨pk, idx⟩ := e
    simp only [List.map_cons, List.nodup_cons] at hnodup
    have hne : ∀ e'' ∈ rest, e''.1 ≠ pk := by
      intro e'' he'' heq
      exact hnodup.1 (heq ▸ List.mem_map_of_mem Prod.fst he'')
    set pots₂ := dictInsert pots pk
      (PotentialValue.plain
        ⟨updateQuantities p.parameters (newP.getD idx []), p.map_key⟩) with hpots₂
    obtain ⟨pots', hloop, hupd, hrest⟩ := ih pots₂ hnodup.2 (by
      intro e'' he''
      obtain ⟨q, hq, hql⟩ := h e'' (List.mem_cons_of_mem _ he'')
      exact ⟨q, by rw [hpots₂, alookup_dictInsert_ne pots _ (hne e'' he''), hq], hql⟩)
    refine ⟨pots', ?_, ?_, ?_⟩
    · rw [setLoop, hp]
      show (if (newP.getD idx []).length ≠ p.parameters.length
          then Except.error Err.runtimeError
          else setLoop newP rest pots₂) = Except.ok pots'
      rw [if_neg (fun hc => hc hlen)]
      exact hloop
    · intro e' he' q hq
      rcases List.mem_cons.1 he' with heq | hm
      · subst heq
        have hq' : q = p := by
          rw [hq] at hp
          have h2 := Option.some_inj.mp hp
          cases h2
          rfl
        subst hq'
        have hk : (pk, idx).1 ∉ rest.map Prod.fst := hnodup.1
        rw [hrest _ hk, hpots₂, alookup_dictInsert_self]
      · have hq₂ : alookup pots₂ e'.1 = some (.plain q) := by
          rw [hpots₂, alookup_dictInsert_ne pots _ (hne e' hm), hq]
        exact hupd e' hm q hq₂
    · intro q hq
      simp only [List.map_cons, List.mem_cons] at hq
      push_neg at hq
      rw [hrest q hq.2, hpots₂, alookup_dictInsert_ne pots _ hq.1]

/-- Claim C8 (amended): for a Collection in which every `PotentialKey`
occurring in `key_map` has a plain `Potential` entry in `potentials`,
`set_force_field_parameters` raises `RuntimeError` when the row count
differs from `len(get_mapping())`, or when some key's row has a column
count different from that potential's parameter count; when the shapes
agree it succeeds, overwriting each stored parameter with the matching
array entry times the parameter's original unit and touching nothing
else.  (Without the proviso a missing entry surfaces as `KeyError`, not
`RuntimeError`, and for a `WrappedPotential` entry the write lands in a
freshly derived dict instead of the stored data.) -/
theorem set_ffp_c8 (c : Collection) (newP : List (List ℚ))
    (hpresent : ∀ pk ∈ c.key_map.map Prod.snd,
      ∃ p, alookup c.potentials pk = some (.plain p)) :
    (newP.length ≠ c.getMapping.length →
      c.setForceFieldParameters newP = .error .runtimeError) ∧
    (newP.length = c.getMapping.length →
      ((∃ e ∈ c.getMapping, ∃ p, alookup c.potentials e.1 = some (.plain p) ∧
          (newP.getD e.2 []).length ≠ p.parameters.length) →
        c.setForceFieldParameters newP = .error .runtimeError) ∧
      ((∀ e ∈ c.getMapping, ∀ p, alookup c.potentials e.1 = some (.plain p) →
          (newP.getD e.2 []).length = p.parameters.length) →
        ∃ c', c.setForceFieldParameters newP = .ok c' ∧
          c'.key_map = c.key_map ∧
          (∀ e ∈ c.getMapping, ∀ p, alookup c.potentials e.1 = some (.plain p) →
            alookup c'.potentials e.1 = some (.plain
              ⟨updateQuantities p.parameters (newP.getD e.2 []), p.map_key⟩)) ∧
          ∀ q, q ∉ c.getMapping.map Prod.fst →
            alookup c'.potentials q = alookup c.potentials q)) := by
  have hfst : c.getMapping.map Prod.fst = distincts (c.key_map.map Prod.snd) := by
    rw [getMapping_eq, withIndices_map_fst]
  have hnodup : (c.getMapping.map Prod.fst).Nodup := by
    rw [hfst]; exact distincts_nodup _
  have hpres' : ∀ e ∈ c.getMapping, ∃ p,
      alookup c.potentials e.1 = some (.plain p) := by
    intro e he
    refine hpresent e.1 ?_
    have : e.1 ∈ c.getMapping.map Prod.fst := List.mem_map_of_mem Prod.fst he
    rw [hfst] at this
    exact (mem_distincts _ e.1).1 this
  constructor
  · intro h
    rw [Collection.setForceFieldParameters, if_pos h]
  · intro hlen
    constructor
    · intro hbad
      rw [Collection.setForceFieldParameters, if_neg (fun hc => hc hlen),
        setLoop_error newP c.getMapping c.potentials hnodup hpres' hbad]
    · intro hgood
      obtain ⟨pots', hloop, hupd, huntouched⟩ :=
        setLoop_ok newP c.getMapping c.potentials hnodup (by
          intro e he
          obtain ⟨p, hp⟩ := hpres' e he
          exact ⟨p, hp, hgood e he p hp⟩)
      refine ⟨{ c with potentials := pots' }, ?_, rfl, hupd, huntouched⟩
      rw [Collection.setForceFieldParameters, if_neg (fun hc => hc hlen), hloop]

/-- Counterexample to claim C8 as stated: `cexC8` has one `key_map` entry
and an empty `potentials`; the supplied array has the right row count
and no column-count conflict is possible, yet the call fails with
`KeyError`, which is not the claimed `RuntimeError`, and nothing is
overwritten. -/
theorem set_ffp_c8_counterexample :
    cexC8.setForceFieldParameters [[]] = .error .keyError ∧
    Err.keyError ≠ Err.runtimeError := by
  decide

/-- Witness for the amended claim C8: on the well-formed collection
`wexC2` with a well-shaped array, the call succeeds. -/
theorem set_ffp_c8_witness :
    exceptIsOk (wexC2.setForceFieldParameters [[500, 109]]) = true := by
  have hpresent : ∀ pk ∈ wexC2.key_map.map Prod.snd,
      ∃ p, alookup wexC2.potentials pk = some (.plain p) := by
    intro pk hpk
    have hval : wexC2.key_map.map Prod.snd = [pkBond1, pkBond1] := by decide
    rw [hval] at hpk
    have hpk1 : pk = pkBond1 := by
      rcases List.mem_cons.1 hpk with h | h
      · exact h
      · simpa using h
    subst hpk1
    exact ⟨⟨[("k", ⟨500, "kcal"⟩), ("length", ⟨109, "pm"⟩)], none⟩, by decide⟩
  have hgood : ∀ e ∈ wexC2.getMapping, ∀ p,
      alookup wexC2.potentials e.1 = some (.plain p) →
      (([[(500 : ℚ), 109]] : List (List ℚ)).getD e.2 []).length =
        p.parameters.length := by
    intro e he p hp
    have hmapv : wexC2.getMapping = [(pkBond1, 0)] := by decide
    rw [hmapv] at he
    have he' : e = (pkBond1, 0) := by simpa using he
    subst he'
    have hp' : alookup wexC2.potentials pkBond1 = some (.plain
        ⟨[("k", ⟨500, "kcal"⟩), ("length", ⟨109, "pm"⟩)], none⟩) := by decide
    rw [hp'] at hp
    have hq : p = ⟨[("k", ⟨500, "kcal"⟩), ("length", ⟨109, "pm"⟩)], none⟩ := by
      injection Option.some_inj.mp hp with h
      exact h.symm
    subst hq
    decide
  obtain ⟨c', hc', -, -, -⟩ :=
    ((set_ffp_c8 wexC2 [[500, 109]] hpresent).2 (by decide)).2 hgood
  rw [hc']
  rfl

/-! ## WrappedPotential lemmas, claims C6 and C4 -/

theorem listMapCongr (f g : α → β) :
    ∀ l : List α, (∀ a ∈ l, f a = g a) → l.map f = l.map g := by
  intro l
  induction l with
  | nil => intro _; rfl
  | cons a tl ih =>
    intro h
    simp only [List.map_cons]
    rw [h a (List.mem_cons_self a tl), ih fun a' ha' => h a' (List.mem_cons_of_mem _ ha')]

theorem wrappedTermFor_ok (k : String) :
    ∀ inner : List (Potential × ℚ),
      (∀ pc ∈ inner, (alookup pc.1.parameters k).isSome = true) →
      wrappedTermFor inner k =
        .ok (inner.map fun pc => qscale pc.2 ((alookup pc.1.parameters k).getD ⟨0, ""⟩)) := by
  intro inner
  induction inner with
  | nil => intro _; rfl
  | cons pc rest ih =>
    intro h
    obtain ⟨q, hq⟩ := Option.isSome_iff_exists.1 (h pc (List.mem_cons_self pc rest))
    rw [wrappedTermFor, hq, ih fun pc' hpc' => h pc' (List.mem_cons_of_mem _ hpc')]
    simp [hq]

theorem wrappedTermFor_cases (k : String) :
    ∀ inner : List (Potential × ℚ),
      wrappedTermFor inner k = .error .keyError ∨
        ∃ ts, wrappedTermFor inner k = .ok ts := by
  intro inner
  induction inner with
  | nil => exact Or.inr ⟨[], rfl⟩
  | cons pc rest ih =>
    cases hl : alookup pc.1.parameters k with
    | none =>
      left
      rw [wrappedTermFor, hl]
    | some q =>
      rcases ih with he | ⟨ts, hts⟩
      · left
        rw [wrappedTermFor, hl, he]
      · exact Or.inr ⟨qscale pc.2 q :: ts, by rw [wrappedTermFor, hl, hts]⟩

theorem wrappedTermFor_error_shape (k : String)
    (inner : List (Potential × ℚ)) (e : Err)
    (h : wrappedTermFor inner k = .error e) : e = .keyError := by
  rcases wrappedTermFor_cases k inner with he | ⟨ts, hts⟩
  · rw [he] at h
    injection h with h1
    exact h1.symm
  · rw [hts] at h
    exact absurd h (by simp)

theorem wrappedTermFor_ok_all (k : String) :
    ∀ (inner : List (Potential × ℚ)) (ts : List Quantity),
      wrappedTermFor inner k = .ok ts →
      ∀ pc ∈ inner, (alookup pc.1.parameters k).isSome = true := by
  intro inner
  induction inner with
  | nil => intro ts _ pc hpc; exact absurd hpc (List.not_mem_nil pc)
  | cons pc0 rest ih =>
    intro ts h pc hpc
    rw [wrappedTermFor] at h
    cases hl : alookup pc0.1.parameters k with
    | none =>
      rw [hl] at h
      cases h
    | some q =>
      rw [hl] at h
      cases ht : wrappedTermFor rest k with
      | error e' =>
        rw [ht] at h
        cases h
      | ok ts' =>
        rcases List.mem_cons.1 hpc with he | hm
        · subst he
          rw [hl]
          rfl
        · exact ih ts' ht pc hm

theorem wrappedParametersGo_ok (inner : List (Potential × ℚ)) :
    ∀ names : List String,
      (∀ k ∈ names, ∀ pc ∈ inner, (alookup pc.1.parameters k).isSome = true) →
      wrappedParametersGo inner names =
        .ok (names.map fun k => (k, weightedSum inner k)) := by
  intro names
  induction names with
  | nil => intro _; rfl
  | cons k ks ih =>
    intro h
    rw [wrappedParametersGo,
      wrappedTermFor_ok k inner (h k (List.mem_cons_self k ks)),
      ih fun k' hk' => h k' (List.mem_cons_of_mem _ hk')]
    rfl

theorem wrappedParametersGo_error (inner : List (Potential × ℚ)) :
    ∀ names : List String,
      (∃ k ∈ names, ∃ pc ∈ inner, alookup pc.1.parameters k = none) →
      wrappedParametersGo inner names = .error .keyError := by
  intro names
  induction names with
  | nil =>
    rintro ⟨k, hk, -⟩
    exact absurd hk (List.not_mem_nil k)
  | cons k0 ks ih =>
    rintro ⟨k, hk, pc, hpc, hnone⟩
    rw [wrappedParametersGo]
    cases ht : wrappedTermFor inner k0 with
    | error e =>
      rw [wrappedTermFor_error_shape k0 inner e ht]
    | ok ts =>
      have hks : k ∈ ks := by
        rcases List.mem_cons.1 hk with he | hm
        · exfalso
          subst he
          have := wrappedTermFor_ok_all k inner ts ht pc hpc
          rw [hnone] at this
          exact Bool.false_ne_true this
        · exact hm
      rw [ih ⟨k, hks, pc, hpc, hnone⟩]

theorem alookup_map_graph [DecidableEq α] (f : α → β) :
    ∀ names : List α, names.Nodup → ∀ k ∈ names,
      alookup (names.map fun x => (x, f x)) k = some (f k) := by
  intro names
  induction names with
  | nil => intro _ k hk; exact absurd hk (List.not_mem_nil k)
  | cons a rest ih =>
    intro hnd k hk
    simp only [List.map_cons, alookup]
    by_cases ha : a = k
    · subst ha
      simp
    · rw [if_neg ha]
      rcases List.mem_cons.1 hk with he | hm
      · exact absurd he.symm ha
      · exact ih (List.nodup_cons.1 hnd).2 k hm

/-- Claim C6: for every `WrappedPotential`, the `parameters` property
returns, for each name present in any constituent, the sum of
`coefficient * constituent.parameters[name]` over all constituents; and
when some constituent lacks a name another constituent defines, the
access fails with the lookup error (`KeyError`) instead of silently
skipping that constituent. -/
theorem wrapped_parameters_c6 (inner : List (Potential × ℚ)) :
    ((∀ pc ∈ inner, ∀ k ∈ unionNames (inner.map Prod.fst),
        (alookup pc.1.parameters k).isSome = true) →
      wrappedParameters inner =
        .ok ((unionNames (inner.map Prod.fst)).map fun k => (k, weightedSum inner k)) ∧
      ∀ k ∈ unionNames (inner.map Prod.fst),
        alookup ((unionNames (inner.map Prod.fst)).map fun k => (k, weightedSum inner k)) k =
          some (weightedSum inner k)) ∧
    ((∃ k ∈ unionNames (inner.map Prod.fst), ∃ pc ∈ inner,
        alookup pc.1.parameters k = none) →
      wrappedParameters inner = .error .keyError) := by
  constructor
  · intro h
    constructor
    · exact wrappedParametersGo_ok inner (unionNames (inner.map Prod.fst))
        fun k hk pc hpc => h pc hpc k hk
    · exact alookup_map_graph (fun k => weightedSum inner k) _ (distincts_nodup _)
  · intro h
    exact wrappedParametersGo_error inner (unionNames (inner.map Prod.fst)) h

/-- Witness for claim C6: a two-constituent `WrappedPotential` with both
names present sums to coefficient-weighted values, and one with a
missing name fails with the lookup error. -/
theorem wrapped_parameters_c6_witness :
    wrappedParameters innerC6good = .ok [("k", ⟨4, "u"⟩)] ∧
    wrappedParameters innerC6bad = .error .keyError := by
  constructor
  · have h := ((wrapped_parameters_c6 innerC6good).1 (by decide)).1
    rw [h]
    norm_num [innerC6good, unionNames, distincts, distinctsFrom, weightedSum,
      sumQuantities, qadd, qscale, alookup]
  · exact (wrapped_parameters_c6 innerC6bad).2 (by decide)

theorem distinctsFrom_of_nodup [DecidableEq α] :
    ∀ (l seen : List α), (∀ x ∈ l, x ∉ seen) → l.Nodup →
      distinctsFrom seen l = l := by
  intro l
  induction l with
  | nil => intro _ _ _; rfl
  | cons a rest ih =>
    intro seen hs hnd
    rw [distinctsFrom, if_neg (hs a (List.mem_cons_self a rest))]
    congr 1
    refine ih (a :: seen) (fun x hx => ?_) (List.nodup_cons.1 hnd).2
    intro hmem
    rcases List.mem_cons.1 hmem with he | hm
    · exact (List.nodup_cons.1 hnd).1 (he ▸ hx)
    · exact hs x (List.mem_cons_of_mem _ hx) hm

theorem distinctsFrom_nil_of_subset [DecidableEq α] :
    ∀ (l seen : List α), (∀ x ∈ l, x ∈ seen) → distinctsFrom seen l = [] := by
  intro l
  induction l with
  | nil => intro _ _; rfl
  | cons a rest ih =>
    intro seen hs
    rw [distinctsFrom, if_pos (hs a (List.mem_cons_self a rest))]
    exact ih seen fun x hx => hs x (List.mem_cons_of_mem _ hx)

theorem distinctsFrom_append_right [DecidableEq α] :
    ∀ (l₁ l₂ seen : List α), (∀ x ∈ l₂, x ∈ seen ∨ x ∈ l₁) →
      distinctsFrom seen (l₁ ++ l₂) = distinctsFrom seen l₁ := by
  intro l₁
  induction l₁ with
  | nil =>
    intro l₂ seen h
    rw [List.nil_append, distinctsFrom]
    exact distinctsFrom_nil_of_subset l₂ seen fun x hx =>
      (h x hx).resolve_right (List.not_mem_nil x)
  | cons a rest ih =>
    intro l₂ seen h
    rw [List.cons_append]
    by_cases ha : a ∈ seen
    · rw [distinctsFrom, if_pos ha, distinctsFrom, if_pos ha]
      refine ih l₂ seen fun x hx => ?_
      rcases h x hx with hs | hm
      · exact Or.inl hs
      · rcases List.mem_cons.1 hm with he | hr
        · exact Or.inl (he ▸ ha)
        · exact Or.inr hr
    · rw [distinctsFrom, if_neg ha, distinctsFrom, if_neg ha]
      congr 1
      refine ih l₂ (a :: seen) fun x hx => ?_
      rcases h x hx with hs | hm
      · exact Or.inl (List.mem_cons_of_mem _ hs)
      · rcases List.mem_cons.1 hm with he | hr
        · exact Or.inl (he ▸ List.mem_cons_self a seen)
        · exact Or.inr hr

theorem distincts_append_self [DecidableEq α] (l : List α) (h : l.Nodup) :
    distincts (l ++ l) = l := by
  rw [distincts, distinctsFrom_append_right l l [] fun x hx => Or.inr hx]
  exact distinctsFrom_of_nodup l [] (fun x _ => List.not_mem_nil x) h

theorem assoc_reconstruct [DecidableEq α] :
    ∀ (l : List (α × β)) (d : β), (l.map Prod.fst).Nodup →
      (l.map Prod.fst).map (fun k => (k, (alookup l k).getD d)) = l := by
  intro l
  induction l with
  | nil => intro _ _; rfl
  | cons a tl ih =>
    intro d h
    simp only [List.map_cons, List.nodup_cons] at h
    simp only [List.map_cons]
    have hhead : (a.1, (alookup (a :: tl) a.1).getD d) = a := by
      rw [alookup, if_pos rfl]
      rfl
    rw [hhead]
    congr 1
    have htail : ∀ k ∈ tl.map Prod.fst,
        (k, (alookup (a :: tl) k).getD d) = (k, (alookup tl k).getD d) := by
      intro k hk
      have hne : a.1 ≠ k := fun he => h.1 (he ▸ hk)
      rw [alookup, if_neg hne]
    rw [listMapCongr _ _ _ htail, ih d h.2]

theorem units_align :
    ∀ ps1 ps2 : List (String × Quantity),
      ps1.map Prod.fst = ps2.map Prod.fst →
      ps1.map (fun nq => nq.2.u) = ps2.map (fun nq => nq.2.u) →
      ∀ k qa qb, alookup ps1 k = some qa → alookup ps2 k = some qb →
        qa.u = qb.u := by
  intro ps1
  induction ps1 with
  | nil =>
    intro ps2 hn _ k qa qb ha _
    simp [alookup] at ha
  | cons a tl ih =>
    intro ps2 hn hu k qa qb ha hb
    cases ps2 with
    | nil => simp at hn
    | cons b tl2 =>
      simp only [List.map_cons, List.cons.injEq] at hn hu
      by_cases hk : a.1 = k
      · rw [alookup, if_pos hk] at ha
        rw [alookup, if_pos (hn.1.symm.trans hk)] at hb
        obtain rfl : a.2 = qa := Option.some_inj.mp ha
        obtain rfl : b.2 = qb := Option.some_inj.mp hb
        exact hu.1
      · rw [alookup, if_neg hk] at ha
        rw [alookup, if_neg (fun hbk => hk (hn.1.trans hbk))] at hb
        exact ih tl2 hn.2 hu.2 k qa qb ha hb

theorem wrappedParameters_two (pa pb : Potential) (ca cb : ℚ)
    (hn : pa.parameters.map Prod.fst = pb.parameters.map Prod.fst)
    (hnd : (pa.parameters.map Prod.fst).Nodup) :
    wrappedParameters [(pa, ca), (pb, cb)] =
      .ok ((pa.parameters.map Prod.fst).map fun k =>
        (k, qadd (qscale ca ((alookup pa.parameters k).getD ⟨0, ""⟩))
                 (qscale cb ((alookup pb.parameters k).getD ⟨0, ""⟩)))) := by
  have hun : unionNames [pa, pb] = pa.parameters.map Prod.fst := by
    rw [unionNames]
    simp only [List.map_cons, List.map_nil, List.flatten_cons, List.flatten_nil,
      List.append_nil]
    rw [← hn]
    exact distincts_append_self _ hnd
  have hsome : ∀ k ∈ unionNames [pa, pb], ∀ pc ∈ [(pa, ca), (pb, cb)],
      (alookup pc.1.parameters k).isSome = true := by
    intro k hk pc hpc
    rw [hun] at hk
    rcases List.mem_cons.1 hpc with he | hm
    · subst he
      exact alookup_isSome_of_mem hk
    · have he : pc = (pb, cb) := by
        rcases List.mem_cons.1 hm with he | hx
        · exact he
        · exact absurd hx (List.not_mem_nil pc)
      subst he
      exact alookup_isSome_of_mem (hn ▸ hk)
  have hgo := wrappedParametersGo_ok [(pa, ca), (pb, cb)] (unionNames [pa, pb])
    fun k hk pc hpc => hsome k hk pc hpc
  show wrappedParametersGo [(pa, ca), (pb, cb)]
      (unionNames ([(pa, ca), (pb, cb)].map Prod.fst)) = _
  have hmapfst : [(pa, ca), (pb, cb)].map Prod.fst = [pa, pb] := rfl
  rw [hmapfst, hgo, hun]
  rfl

/-- Claim C4: the interpolation coefficients are
`coeff1 = (x2 - x)/(x2 - x1)` and `coeff2 = (x - x1)/(x2 - x1)`; they sum
to 1 for every query `x`; at `x = x1` they are `(1, 0)` and at `x = x2`
they are `(0, 1)`, so a `WrappedPotential` built from the two sample
potentials evaluates, at `x = x1`, to exactly the first sample's
parameters, and at `x = x2` to exactly the second's.  (The two samples
produced by `store_potentials` carry the same parameter names, without
duplicates, and like units per name — the three structural
hypotheses.) -/
theorem interpolation_c4 (x x1 x2 : ℚ) (p1 p2 : Potential)
    (hlt : x1 < x2)
    (hn : p1.parameters.map Prod.fst = p2.parameters.map Prod.fst)
    (hnd : (p1.parameters.map Prod.fst).Nodup)
    (hu : p1.parameters.map (fun nq => nq.2.u) =
      p2.parameters.map (fun nq => nq.2.u)) :
    getInterpolationCoeffs x x1 x2 =
      ((x2 - x) / (x2 - x1), (x - x1) / (x2 - x1)) ∧
    (getInterpolationCoeffs x x1 x2).1 + (getInterpolationCoeffs x x1 x2).2 = 1 ∧
    getInterpolationCoeffs x1 x1 x2 = (1, 0) ∧
    getInterpolationCoeffs x2 x1 x2 = (0, 1) ∧
    wrappedParameters [(p1, (getInterpolationCoeffs x1 x1 x2).1),
      (p2, (getInterpolationCoeffs x1 x1 x2).2)] = .ok p1.parameters ∧
    wrappedParameters [(p1, (getInterpolationCoeffs x2 x1 x2).1),
      (p2, (getInterpolationCoeffs x2 x1 x2).2)] = .ok p2.parameters := by
  have hne : x2 - x1 ≠ 0 := sub_ne_zero.2 (ne_of_gt hlt)
  have hc1 : getInterpolationCoeffs x1 x1 x2 = (1, 0) := by
    show ((x2 - x1) / (x2 - x1), (x1 - x1) / (x2 - x1)) = ((1 : ℚ), (0 : ℚ))
    rw [div_self hne, sub_self, zero_div]
  have hc2 : getInterpolationCoeffs x2 x1 x2 = (0, 1) := by
    show ((x2 - x2) / (x2 - x1), (x2 - x1) / (x2 - x1)) = ((0 : ℚ), (1 : ℚ))
    rw [div_self hne, sub_self, zero_div]
  have hnd2 : (p2.parameters.map Prod.fst).Nodup := hn ▸ hnd
  refine ⟨rfl, ?_, hc1, hc2, ?_, ?_⟩
  · show (x2 - x) / (x2 - x1) + (x - x1) / (x2 - x1) = 1
    rw [div_add_div_same, show x2 - x + (x - x1) = x2 - x1 by ring, div_self hne]
  · rw [hc1]
    show wrappedParameters [(p1, (1 : ℚ)), (p2, (0 : ℚ))] = .ok p1.parameters
    rw [wrappedParameters_two p1 p2 1 0 hn hnd]
    have hval : ∀ k ∈ p1.parameters.map Prod.fst,
        (k, qadd (qscale 1 ((alookup p1.parameters k).getD ⟨0, ""⟩))
                 (qscale 0 ((alookup p2.parameters k).getD ⟨0, ""⟩)))
          = (k, (alookup p1.parameters k).getD ⟨0, ""⟩) := by
      intro k _
      have hq : ∀ qa qb : Quantity, qadd (qscale 1 qa) (qscale 0 qb) = qa := by
        intro qa qb
        show (⟨1 * qa.m + 0 * qb.m, qa.u⟩ : Quantity) = qa
        rw [one_mul, zero_mul, add_zero]
      rw [hq]
    rw [listMapCongr _ _ _ hval, assoc_reconstruct p1.parameters ⟨0, ""⟩ hnd]
  · rw [hc2]
    show wrappedParameters [(p1, (0 : ℚ)), (p2, (1 : ℚ))] = .ok p2.parameters
    rw [wrappedParameters_two p1 p2 0 1 hn hnd]
    have hval : ∀ k ∈ p1.parameters.map Prod.fst,
        (k, qadd (qscale 0 ((alookup p1.parameters k).getD ⟨0, ""⟩))
                 (qscale 1 ((alookup p2.parameters k).getD ⟨0, ""⟩)))
          = (k, (alookup p2.parameters k).getD ⟨0, ""⟩) := by
      intro k hk
      obtain ⟨qa, hqa⟩ := Option.isSome_iff_exists.1 (alookup_isSome_of_mem hk)
      obtain ⟨qb, hqb⟩ := Option.isSome_iff_exists.1 (alookup_isSome_of_mem (hn ▸ hk))
      have huab : qa.u = qb.u :=
        units_align p1.parameters p2.parameters hn hu k qa qb hqa hqb
      rw [hqa, hqb]
      show (k, qadd (qscale 0 qa) (qscale 1 qb)) = (k, qb)
      have : qadd (qscale 0 qa) (qscale 1 qb) = qb := by
        show (⟨0 * qa.m + 1 * qb.m, qa.u⟩ : Quantity) = qb
        rw [zero_mul, one_mul, zero_add, huab]
      rw [this]
    rw [listMapCongr _ _ _ hval, hn, assoc_reconstruct p2.parameters ⟨0, ""⟩ hnd2]

/-- Witness for claim C4 at the concrete samples `p1ex`/`p2ex` tabulated
at covariates 1 and 2: at the left endpoint the coefficients are `(1, 0)`
and the wrapped parameters are exactly the first sample's. -/
theorem interpolation_c4_witness :
    getInterpolationCoeffs 1 1 2 = (1, 0) ∧
    wrappedParameters [(p1ex, (getInterpolationCoeffs 1 1 2).1),
      (p2ex, (getInterpolationCoeffs 1 1 2).2)] = .ok p1ex.parameters := by
  have h := interpolation_c4 1 1 2 p1ex p2ex (by decide) (by decide) (by decide)
    (by decide)
  exact ⟨h.2.2.1, h.2.2.2.2.1⟩

/-! ## Claim C3 -/

theorem validateKeyMap_roundtrip :
    ∀ km : List (TopologyKey × PotentialKey),
      (∀ kv ∈ km, dispatchKeyVariant kv.2.associated_handler = kv.1.variant) →
      validateKeyMap (serializeKeyMap km) = km := by
  intro km
  induction km with
  | nil => intro _; rfl
  | cons kv rest ih =>
    intro h
    show (⟨dispatchKeyVariant kv.2.associated_handler, kv.1.atom_indices,
        kv.1.mult, kv.1.bond_order⟩, kv.2) :: validateKeyMap (serializeKeyMap rest) =
      kv :: rest
    rw [h kv (List.mem_cons_self kv rest),
      ih fun kv' hkv' => h kv' (List.mem_cons_of_mem _ hkv')]

theorem validatePotentialDict_roundtrip :
    ∀ pots : List (PotentialKey × PotentialValue),
      (∀ kv ∈ pots, kv.2.isWrapped = false) →
      validatePotentialDict (serializePotentials pots) = pots := by
  intro pots
  induction pots with
  | nil => intro _; rfl
  | cons kv rest ih =>
    intro h
    obtain ⟨k1, v⟩ := kv
    have hpl : v.isWrapped = false := h (k1, v) (List.mem_cons_self _ rest)
    cases v with
    | wrapped inner => exact absurd hpl (by simp [PotentialValue.isWrapped])
    | plain p =>
      show (k1, PotentialValue.plain ⟨p.parameters, p.map_key⟩) ::
          validatePotentialDict (serializePotentials rest) = (k1, .plain p) :: rest
      rw [ih fun kv' hkv' => h kv' (List.mem_cons_of_mem _ hkv')]

/-- Claim C3 (amended): serializing a Collection to the structured
document and deserializing reproduces it exactly — identical `key_map`
and numerically identical `potentials` — provided every stored value is
a plain `Potential` and each `TopologyKey`'s variant is the one the
dispatch table assigns to its `PotentialKey`'s `associated_handler`.  A
`WrappedPotential` entry does not survive the round trip: its inner data
is a pydantic private attribute, dropped by serialization, and
`validate_potential_dict` re-parses every value as a plain `Potential`. -/
theorem roundtrip_c3_amended (c : Collection)
    (hplain : ∀ kv ∈ c.potentials, kv.2.isWrapped = false)
    (hdispatch : ∀ kv ∈ c.key_map,
      dispatchKeyVariant kv.2.associated_handler = kv.1.variant) :
    validateCollection (serializeCollection c) = c := by
  obtain ⟨t, ip, e, km, pots⟩ := c
  show Collection.mk t ip e (validateKeyMap (serializeKeyMap km))
    (validatePotentialDict (serializePotentials pots)) = Collection.mk t ip e km pots
  rw [validateKeyMap_roundtrip km hdispatch, validatePotentialDict_roundtrip pots hplain]

/-- Counterexample to claim C3 as stated: round-tripping `cexC3`, whose
one stored value is a `WrappedPotential`, yields a collection whose
stored value is an empty plain `Potential` — the sample magnitudes are
gone, so the result differs from the original. -/
theorem roundtrip_c3_counterexample :
    validateCollection (serializeCollection cexC3) = cexC3res ∧
    cexC3res ≠ cexC3 := by
  decide

/-- Witness for the amended claim C3 at the concrete collection `wexC2`
(plain potentials, coherent variants). -/
theorem roundtrip_c3_witness :
    validateCollection (serializeCollection wexC2) = wexC2 :=
  roundtrip_c3_amended wexC2 (by decide) (by decide)

/-! ## Claim C9 -/

theorem angleStorePotentialsLoop_ok (hp : List (String × AngleParameterType)) :
    ∀ (ks : List PotentialKey) (pots : List (PotentialKey × PotentialValue)),
      (∀ pk ∈ ks, (alookup hp pk.id).isSome = true) →
      ∃ pots', angleStorePotentialsLoop hp ks pots = .ok pots' ∧
        (∀ pk ∈ ks, ∃ par, alookup hp pk.id = some par ∧
          alookup pots' pk =
            some (.plain ⟨[("k", par.k), ("angle", par.angle)], none⟩)) ∧
        ∀ q, q ∉ ks → alookup pots' q = alookup pots q := by
  intro ks
  induction ks with
  | nil =>
    intro pots _
    exact ⟨pots, rfl, fun pk hpk => absurd hpk (List.not_mem_nil pk),
      fun q _ => rfl⟩
  | cons pk rest ih =>
    intro pots h
    obtain ⟨par, hpar⟩ :=
      Option.isSome_iff_exists.1 (h pk (List.mem_cons_self pk rest))
    obtain ⟨pots', hloop, hin, hout⟩ :=
      ih (dictInsert pots pk (.plain ⟨[("k", par.k), ("angle", par.angle)], none⟩))
        fun pk' hpk' => h pk' (List.mem_cons_of_mem _ hpk')
    refine ⟨pots', ?_, ?_, ?_⟩
    · rw [angleStorePotentialsLoop, hpar]
      exact hloop
    · intro pk' hpk'
      by_cases hmem : pk' ∈ rest
      · exact hin pk' hmem
      · have hpe : pk' = pk := by
          rcases List.mem_cons.1 hpk' with he | hm
          · exact he
          · exact absurd hm hmem
        subst hpe
        exact ⟨par, hpar, by rw [hout pk' hmem, alookup_dictInsert_self]⟩
    · intro q hq
      simp only [List.mem_cons] at hq
      push_neg at hq
      rw [hout q hq.2, alookup_dictInsert_ne pots _ hq.1]

/-- Claim C9 (amended): `SMIRNOFFAngleCollection.store_potentials` (and
likewise the proper-torsion one) does not discard previously stored
content: after the call, `potentials` holds one entry resolved from the
definition table for each distinct `PotentialKey` occurring in
`key_map`, while every previously stored entry under a key not occurring
in `key_map` is retained unchanged.  (Only the bond collection resets
`potentials` before repopulating it.) -/
theorem angle_store_potentials_c9_amended (c : Collection)
    (hp : List (String × AngleParameterType))
    (hres : ∀ pk ∈ c.key_map.map Prod.snd, (alookup hp pk.id).isSome = true) :
    ∃ c', angleStorePotentials c hp = .ok c' ∧
      c'.key_map = c.key_map ∧
      (∀ pk ∈ c.key_map.map Prod.snd, ∃ par, alookup hp pk.id = some par ∧
        alookup c'.potentials pk =
          some (.plain ⟨[("k", par.k), ("angle", par.angle)], none⟩)) ∧
      ∀ q, q ∉ c.key_map.map Prod.snd →
        alookup c'.potentials q = alookup c.potentials q := by
  obtain ⟨pots', hloop, hin, hout⟩ :=
    angleStorePotentialsLoop_ok hp (c.key_map.map Prod.snd) c.potentials hres
  refine ⟨{ c with potentials := pots' }, ?_, rfl, hin, hout⟩
  rw [angleStorePotentials.eq_def, hloop]

/-- Counterexample to claim C9 as stated: running the angle collection's
`store_potentials` on `cexC9` retains the stale entry under `pkStale`,
a key that occurs nowhere in `key_map`, so `potentials` does not end up
holding exactly one entry per distinct `key_map` value and nothing
else. -/
theorem angle_store_c9_counterexample :
    angleStorePotentials cexC9 angleHandlerEx = .ok cexC9res ∧
    pkStale ∈ cexC9res.potentials.map Prod.fst ∧
    pkStale ∉ cexC9.key_map.map Prod.snd := by
  decide

/-- Witness for the amended claim C9 at the concrete collection `cexC9`
with its one-definition parameter table. -/
theorem angle_store_c9_witness :
    exceptIsOk (angleStorePotentials cexC9 angleHandlerEx) = true := by
  obtain ⟨c', hc', -, -, -⟩ :=
    angle_store_potentials_c9_amended cexC9 angleHandlerEx (by decide)
  rw [hc']
  rfl

/-! ## Claim C10 -/

/-- Claim C10: processing one improper-torsion match `(a0, a1, a2, a3)`
with term index `n` inserts exactly three topology keys — one per cyclic
permutation of the non-central atoms `[a0, a2, a3]`, the central atom
`a1` placed first, each with multiplicity `n` — and all three map to one
and the same `PotentialKey`; no other entry of `key_map` is touched.
(The three non-central atoms of a real match are pairwise distinct,
which makes the three keys pairwise distinct.) -/
theorem improper_store_matches_c10 (km : List (TopologyKey × PotentialKey))
    (a0 a1 a2 a3 : Nat) (smirks : String) (n : Nat)
    (h02 : a0 ≠ a2) (h03 : a0 ≠ a3) (h23 : a2 ≠ a3) :
    ((⟨.improperTorsion, [a1, a0, a2, a3], some n, none⟩ : TopologyKey) ≠
      ⟨.improperTorsion, [a1, a2, a3, a0], some n, none⟩) ∧
    ((⟨.improperTorsion, [a1, a0, a2, a3], some n, none⟩ : TopologyKey) ≠
      ⟨.improperTorsion, [a1, a3, a0, a2], some n, none⟩) ∧
    ((⟨.improperTorsion, [a1, a2, a3, a0], some n, none⟩ : TopologyKey) ≠
      ⟨.improperTorsion, [a1, a3, a0, a2], some n, none⟩) ∧
    alookup (improperTorsionInsertMatch km a0 a1 a2 a3 smirks n)
      ⟨.improperTorsion, [a1, a0, a2, a3], some n, none⟩ =
      some ⟨smirks, some n, "ImproperTorsions", none⟩ ∧
    alookup (improperTorsionInsertMatch km a0 a1 a2 a3 smirks n)
      ⟨.improperTorsion, [a1, a2, a3, a0], some n, none⟩ =
      some ⟨smirks, some n, "ImproperTorsions", none⟩ ∧
    alookup (improperTorsionInsertMatch km a0 a1 a2 a3 smirks n)
      ⟨.improperTorsion, [a1, a3, a0, a2], some n, none⟩ =
      some ⟨smirks, some n, "ImproperTorsions", none⟩ ∧
    ∀ q : TopologyKey,
      q ≠ ⟨.improperTorsion, [a1, a0, a2, a3], some n, none⟩ →
      q ≠ ⟨.improperTorsion, [a1, a2, a3, a0], some n, none⟩ →
      q ≠ ⟨.improperTorsion, [a1, a3, a0, a2], some n, none⟩ →
      alookup (improperTorsionInsertMatch km a0 a1 a2 a3 smirks n) q =
        alookup km q := by
  have hK12 : (⟨.improperTorsion, [a1, a0, a2, a3], some n, none⟩ : TopologyKey) ≠
      ⟨.improperTorsion, [a1, a2, a3, a0], some n, none⟩ := by
    intro h
    have h' := congrArg TopologyKey.atom_indices h
    simp only [List.cons.injEq] at h'
    exact h02 h'.2.1
  have hK13 : (⟨.improperTorsion, [a1, a0, a2, a3], some n, none⟩ : TopologyKey) ≠
      ⟨.improperTorsion, [a1, a3, a0, a2], some n, none⟩ := by
    intro h
    have h' := congrArg TopologyKey.atom_indices h
    simp only [List.cons.injEq] at h'
    exact h03 h'.2.1
  have hK23 : (⟨.improperTorsion, [a1, a2, a3, a0], some n, none⟩ : TopologyKey) ≠
      ⟨.improperTorsion, [a1, a3, a0, a2], some n, none⟩ := by
    intro h
    have h' := congrArg TopologyKey.atom_indices h
    simp only [List.cons.injEq] at h'
    exact h23 h'.2.1
  have hunfold : improperTorsionInsertMatch km a0 a1 a2 a3 smirks n =
      dictInsert
        (dictInsert
          (dictInsert km ⟨.improperTorsion, [a1, a0, a2, a3], some n, none⟩
            ⟨smirks, some n, "ImproperTorsions", none⟩)
          ⟨.improperTorsion, [a1, a2, a3, a0], some n, none⟩
          ⟨smirks, some n, "ImproperTorsions", none⟩)
        ⟨.improperTorsion, [a1, a3, a0, a2], some n, none⟩
        ⟨smirks, some n, "ImproperTorsions", none⟩ := rfl
  refine ⟨hK12, hK13, hK23, ?_, ?_, ?_, ?_⟩
  · rw [hunfold, alookup_dictInsert_ne _ _ hK13, alookup_dictInsert_ne _ _ hK12,
      alookup_dictInsert_self]
  · rw [hunfold, alookup_dictInsert_ne _ _ hK23, alookup_dictInsert_self]
  · rw [hunfold, alookup_dictInsert_self]
  · intro q hq1 hq2 hq3
    rw [hunfold, alookup_dictInsert_ne _ _ hq3, alookup_dictInsert_ne _ _ hq2,
      alookup_dictInsert_ne _ _ hq1]

/-- Witness for claim C10 at the concrete match `(0, 1, 2, 3)` with term
index 0, starting from an empty key map. -/
theorem improper_store_matches_c10_witness :
    alookup (improperTorsionInsertMatch [] 0 1 2 3 "i1" 0)
      ⟨.improperTorsion, [1, 0, 2, 3], some 0, none⟩ =
      some ⟨"i1", some 0, "ImproperTorsions", none⟩ :=
  (improper_store_matches_c10 [] 0 1 2 3 "i1" 0 (by decide) (by decide)
    (by decide)).2.2.2.1
